import Mathlib

/-!
Verification of the `deno generate` directive engine
(`src/cli/tools/generate/mod.rs`, `src/cli/tools/generate/quoted_split.rs`).

The tokenizer, the filter combinators and the directive-collection /
execution loop are embedded as executable Lean functions translated from
the Rust source. Strings are modelled at the character level (Rust
`char`s); spawning a child process is modelled by an event trace with the
process results supplied by an oracle.
-/

/-- `is_space_byte` from `quoted_split.rs`: space, tab, newline, carriage
return. -/
def is_space_byte (c : Char) : Bool :=
  c == ' ' || c == '\t' || c == '\n' || c == '\r'

/-- The single-quote character. -/
def squote : Char := Char.ofNat 39

/-- The double-quote character. -/
def dquote : Char := Char.ofNat 34

/-- Result of `quoted_split`: either a token list, or the panic raised on
an unterminated quote (`panic!("unterminated {} string", quote)` aborts
the process; there is no error return channel in the Rust function). -/
inductive QSRes where
  | ok : List (List Char) → QSRes
  | panicked : Char → QSRes
deriving DecidableEq, Repr

/-- Prepend a finished token to the result of splitting the rest. -/
def QSRes.consTok (t : List Char) : QSRes → QSRes
  | .ok ts => .ok (t :: ts)
  | .panicked q => .panicked q

/-- The Rust `s.find(quote)` followed by the two slices `&s[..i]` and
`&s[i+1..]`: split at the first occurrence of `q`, or `none` when `q`
does not occur. -/
def breakOnChar (q : Char) : List Char → Option (List Char × List Char)
  | [] => none
  | c :: s =>
    if c = q then some ([], s)
    else (breakOnChar q s).map (fun p => (c :: p.1, p.2))

/-- The unquoted-token scan
`s.chars().position(|c| is_space_byte(c)).unwrap_or(s.len())` with the two
slices `&s[..i]` and `&s[i..]`: the maximal space-free prefix and the rest
(which starts with the space, left for the outer skip loop). -/
def takeTok : List Char → List Char × List Char
  | [] => ([], [])
  | c :: s =>
    if is_space_byte c then ([], c :: s)
    else
      let p := takeTok s
      (c :: p.1, p.2)

theorem takeTok_snd_length (s : List Char) : (takeTok s).2.length ≤ s.length := by
  induction s with
  | nil => simp [takeTok]
  | cons c s ih =>
    by_cases h : is_space_byte c
    · simp [takeTok, h]
    · simp only [takeTok, h]
      exact Nat.le_succ_of_le ih

theorem breakOnChar_some_length {q : Char} {s : List Char} :
    ∀ {t r : List Char}, breakOnChar q s = some (t, r) → r.length < s.length := by
  induction s with
  | nil => intro t r h; simp [breakOnChar] at h
  | cons c s ih =>
    intro t r h
    by_cases hc : c = q
    · rw [breakOnChar, if_pos hc] at h
      obtain ⟨-, rfl⟩ := Prod.mk.injEq .. ▸ Option.some.inj h
      simp
    · rw [breakOnChar, if_neg hc] at h
      cases hb : breakOnChar q s with
      | none => rw [hb] at h; simp at h
      | some p =>
        rw [hb] at h
        obtain ⟨-, rfl⟩ := Prod.mk.injEq .. ▸ Option.some.inj h
        exact Nat.lt_succ_of_lt (ih hb)

/-- `quoted_split` from `quoted_split.rs`, on character lists. Each pass of
the Rust `while` loop skips leading space bytes, then consumes either a
quoted token (verbatim to the next occurrence of the same quote character,
panicking when there is none) or an unquoted token extending to the next
space byte or the end of input. -/
def quoted_split_core : List Char → QSRes
  | [] => .ok []
  | c :: s =>
    if is_space_byte c then quoted_split_core s
    else if c = dquote ∨ c = squote then
      match _h : breakOnChar c s with
      | none => .panicked c
      | some p => (quoted_split_core p.2).consTok p.1
    else
      (quoted_split_core (takeTok s).2).consTok (c :: (takeTok s).1)
termination_by s => s.length
decreasing_by
  · simp [Nat.lt_succ_iff]
  · exact Nat.lt_succ_of_lt (breakOnChar_some_length _h)
  · exact Nat.lt_succ_of_le (takeTok_snd_length s)

/-- Outcome of `quoted_split` on Lean strings: the token list, or the
message of the panic `panic!("unterminated {} string", quote)`. -/
inductive SplitOutcome where
  | ok : List String → SplitOutcome
  | panicked : String → SplitOutcome
deriving DecidableEq, Repr

/-- String-level wrapper of `quoted_split_core`. -/
def quoted_split (s : String) : SplitOutcome :=
  match quoted_split_core s.data with
  | .ok ts => .ok (ts.map fun t => String.mk t)
  | .panicked q => .panicked ("unterminated " ++ String.mk [q] ++ " string")

-- Step (equation) lemmas for `quoted_split_core`.

theorem qsc_nil : quoted_split_core [] = .ok [] := by
  simp [quoted_split_core]

theorem qsc_space {c : Char} (s : List Char) (h : is_space_byte c = true) :
    quoted_split_core (c :: s) = quoted_split_core s := by
  rw [quoted_split_core]
  simp [h]

theorem qsc_quote_none {c : Char} {s : List Char} (hq : c = dquote ∨ c = squote)
    (hb : breakOnChar c s = none) :
    quoted_split_core (c :: s) = .panicked c := by
  have hs : ¬is_space_byte c = true := by
    rcases hq with rfl | rfl <;> decide
  rw [quoted_split_core, if_neg hs, if_pos hq]
  split
  · rfl
  · rename_i p heq
    rw [hb] at heq
    cases heq

theorem qsc_quote_some {c : Char} {s t r : List Char} (hq : c = dquote ∨ c = squote)
    (hb : breakOnChar c s = some (t, r)) :
    quoted_split_core (c :: s) = (quoted_split_core r).consTok t := by
  have hs : ¬is_space_byte c = true := by
    rcases hq with rfl | rfl <;> decide
  rw [quoted_split_core, if_neg hs, if_pos hq]
  split
  · rename_i heq
    rw [hb] at heq
    cases heq
  · rename_i p heq
    rw [hb] at heq
    obtain rfl := Option.some.inj heq
    rfl

theorem qsc_word {c : Char} (s : List Char) (hs : is_space_byte c = false)
    (hq : ¬(c = dquote ∨ c = squote)) :
    quoted_split_core (c :: s)
      = (quoted_split_core (takeTok s).2).consTok (c :: (takeTok s).1) := by
  rw [quoted_split_core]
  simp [hs, hq]

/-- Structural-recursion evaluator for `quoted_split_core`, used to settle
concrete inputs by `decide`; `qscFuel_eq` proves it agrees with the
well-founded definition whenever the fuel covers the input length. -/
def qscFuel : Nat → List Char → QSRes
  | _, [] => .ok []
  | 0, _ :: _ => .panicked ' '
  | n + 1, c :: s =>
    if is_space_byte c then qscFuel n s
    else if c = dquote ∨ c = squote then
      match breakOnChar c s with
      | none => .panicked c
      | some p => (qscFuel n p.2).consTok p.1
    else
      (qscFuel n (takeTok s).2).consTok (c :: (takeTok s).1)

theorem qscFuel_eq : ∀ (n : Nat) (s : List Char), s.length ≤ n →
    qscFuel n s = quoted_split_core s := by
  intro n
  induction n with
  | zero =>
    intro s hs
    cases s with
    | nil => simp [qscFuel, qsc_nil]
    | cons c s => simp at hs
  | succ n ih =>
    intro s hs
    cases s with
    | nil => simp [qscFuel, qsc_nil]
    | cons c s =>
      have hlen : s.length ≤ n := Nat.lt_succ_iff.mp hs
      by_cases hsp : is_space_byte c
      · rw [qscFuel, if_pos hsp, qsc_space s hsp]
        exact ih s hlen
      · by_cases hq : c = dquote ∨ c = squote
        · rw [qscFuel, if_neg hsp, if_pos hq]
          cases hb : breakOnChar c s with
          | none => rw [qsc_quote_none hq hb]
          | some p =>
            rw [qsc_quote_some hq (t := p.1) (r := p.2) (by rw [hb])]
            simp only
            rw [ih p.2 (Nat.le_trans (Nat.le_of_lt (breakOnChar_some_length (t := p.1) (by rw [hb]))) hlen)]
        · have hsp' : is_space_byte c = false := by simpa using hsp
          rw [qscFuel, if_neg hsp, if_neg hq, qsc_word s hsp' hq,
            ih (takeTok s).2 (Nat.le_trans (takeTok_snd_length s) hlen)]

theorem qsc_eval (s : List Char) : quoted_split_core s = qscFuel s.length s :=
  (qscFuel_eq s.length s (Nat.le_refl _)).symm


-- Structure lemmas for `takeTok`.

theorem takeTok_append : ∀ s : List Char, (takeTok s).1 ++ (takeTok s).2 = s := by
  intro s
  induction s with
  | nil => simp [takeTok]
  | cons c s ih =>
    by_cases h : is_space_byte c
    · simp [takeTok, h]
    · simp [takeTok, h, ih]

theorem takeTok_fst_nospace : ∀ (s : List Char), ∀ x ∈ (takeTok s).1,
    is_space_byte x = false := by
  intro s
  induction s with
  | nil => simp [takeTok]
  | cons c s ih =>
    by_cases h : is_space_byte c
    · simp [takeTok, h]
    · intro x hx
      rw [takeTok] at hx
      simp only [h, if_false] at hx
      rcases List.mem_cons.mp hx with rfl | hx'
      · simpa using h
      · exact ih x hx'

theorem takeTok_snd_shape : ∀ s : List Char, (takeTok s).2 = []
    ∨ ∃ c r, (takeTok s).2 = c :: r ∧ is_space_byte c = true := by
  intro s
  induction s with
  | nil => simp [takeTok]
  | cons c s ih =>
    by_cases h : is_space_byte c
    · right; exact ⟨c, s, by simp [takeTok, h], h⟩
    · simpa [takeTok, h] using ih

theorem takeTok_of_nospace (t r : List Char)
    (ht : ∀ x ∈ t, is_space_byte x = false)
    (hr : r = [] ∨ ∃ c r', r = c :: r' ∧ is_space_byte c = true) :
    takeTok (t ++ r) = (t, r) := by
  induction t with
  | nil =>
    rcases hr with rfl | ⟨c, r', rfl, hc⟩
    · simp [takeTok]
    · simp [takeTok, hc]
  | cons x t ih =>
    have hx : is_space_byte x = false := ht x (List.mem_cons_self x t)
    have ht' : ∀ y ∈ t, is_space_byte y = false :=
      fun y hy => ht y (List.mem_cons_of_mem x hy)
    simp [takeTok, hx, ih ht']

/-- The spec's whitespace split, written independently of the tokenizer:
fields of the string delimited by space bytes, empty fields included
(so that `specWords` can discard them, mirroring "splits purely on
whitespace runs, discarding leading/trailing whitespace"). -/
def specSplit : List Char → List (List Char)
  | [] => [[]]
  | c :: s =>
    if is_space_byte c then [] :: specSplit s
    else (c :: (specSplit s).headI) :: (specSplit s).tail

/-- The spec's tokenization of a quote-free string: the nonempty
whitespace-delimited fields. -/
def specWords (s : List Char) : List (List Char) :=
  (specSplit s).filter (fun t => !t.isEmpty)

theorem specSplit_nospace_append (t r : List Char)
    (ht : ∀ x ∈ t, is_space_byte x = false) :
    specSplit (t ++ r) = (t ++ (specSplit r).headI) :: (specSplit r).tail := by
  induction t with
  | nil =>
    cases hr : specSplit r with
    | nil =>
      exfalso
      cases r with
      | nil => simp [specSplit] at hr
      | cons c r' =>
        rw [specSplit] at hr
        by_cases h : is_space_byte c <;> simp [h] at hr
    | cons a l => simp [hr]
  | cons x t ih =>
    have hx : is_space_byte x = false := ht x (List.mem_cons_self x t)
    have ht' : ∀ y ∈ t, is_space_byte y = false :=
      fun y hy => ht y (List.mem_cons_of_mem x hy)
    simp [specSplit, hx, ih ht']

theorem specWords_space {c : Char} (s : List Char) (h : is_space_byte c = true) :
    specWords (c :: s) = specWords s := by
  simp [specWords, specSplit, h]

theorem specWords_tail_eq (r : List Char)
    (hr : r = [] ∨ ∃ c r', r = c :: r' ∧ is_space_byte c = true) :
    (specSplit r).tail.filter (fun t => !t.isEmpty) = specWords r := by
  rcases hr with rfl | ⟨c, r', rfl, hc⟩
  · simp [specSplit, specWords]
  · simp [specWords, specSplit, hc]

theorem specWords_word {c : Char} (s : List Char) (h : is_space_byte c = false) :
    specWords (c :: s) = (c :: (takeTok s).1) :: specWords (takeTok s).2 := by
  have hdec : (takeTok s).1 ++ (takeTok s).2 = s := takeTok_append s
  have hsplit : specSplit s
      = ((takeTok s).1 ++ (specSplit (takeTok s).2).headI) :: (specSplit (takeTok s).2).tail := by
    conv_lhs => rw [← hdec]
    exact specSplit_nospace_append _ _ (takeTok_fst_nospace s)
  have hheadI : (specSplit (takeTok s).2).headI = [] := by
    rcases takeTok_snd_shape s with hnil | ⟨d, r', heq, hd⟩
    · rw [hnil]; simp [specSplit]
    · rw [heq]; simp [specSplit, hd]
  rw [specWords, specSplit, if_neg (by simp [h]), hsplit]
  simp only [List.headI_cons, List.tail_cons]
  rw [hheadI, List.append_nil, List.filter_cons]
  simp only [List.isEmpty_cons, Bool.not_false, if_true]
  rw [specWords_tail_eq _ (takeTok_snd_shape s)]

/-- Modelled from the spec: the `ParsedComment` record produced by
`parse_comments.rs`, a source file of this repository that is not among
the provided sources (only its use sites in `mod.rs` are). Spec section 3:
`line` and `character` are the 1-based source position, `original` is the
raw comment text used for regex filtering, `aliasName` is present exactly
when the comment defines an alias, and `command` / `args` are the
tokenized command and arguments. -/
structure ParsedComment where
  line : Nat
  character : Nat
  original : String
  aliasName : Option String
  command : String
  args : List String
deriving DecidableEq, Repr

/-- `file_filter_from_file_flags` from `mod.rs`, with glob patterns
abstracted to their match predicates (`Pattern::matches` belongs to the
external `glob` crate) and paths to strings. The Rust
`include_patterns.clone().filter(..).next().is_some()` is an existence
test, `List.any`. -/
def file_filter_from_file_flags (include_patterns ignore_patterns : List (String → Bool))
    (filter_fn : String → Bool) (path : String) : Bool :=
  if !filter_fn path then false
  else if ignore_patterns.any (fun p => p path) then false
  else include_patterns.any (fun p => p path)

/-- `comment_filter_from_generate_flags` from `mod.rs`, with the compiled
`run` / `skip` regexes abstracted to their match predicates
(`regex::Regex::is_match` belongs to the external `regex` crate). -/
def comment_filter_from_generate_flags (run_regex skip_regex : Option (String → Bool))
    (filter_fn : String → Bool) (comment : ParsedComment) : Bool :=
  (match run_regex, skip_regex with
    | some run, some skip => run comment.original && !skip comment.original
    | some run, none => run comment.original
    | none, some skip => !skip comment.original
    | none, none => true)
  && filter_fn comment.original

/-- The invocation resolved for one runnable directive: the
`Command::new(cmd)` program and the `.args(cmd_args)` argument list built
in `collect_generate_commands`. The derived environment of `envs_from` is
not modelled; no claim concerns it. -/
structure Invocation where
  prog : String
  cmdArgs : List String
deriving DecidableEq, Repr

/-- The alias map of `collect_generate_commands`
(`HashMap<&str, &ParsedComment>`, where `insert` overwrites): modelled as
an association list extended at the front, with first-match lookup. -/
def alias_lookup (aliases : List (String × ParsedComment)) (n : String) :
    Option ParsedComment :=
  (aliases.find? (fun p => p.1 == n)).map Prod.snd

/-- The loop of `collect_generate_commands` from `mod.rs`: an
alias-defining comment is registered and skipped; any other comment is
dropped when the filter rejects it, and otherwise resolved against the
alias map (alias command; alias args followed by the directive args) or
kept as a plain command when the lookup fails. -/
def collect_generate_commands_go (filter_fn : ParsedComment → Bool)
    (aliases : List (String × ParsedComment)) :
    List ParsedComment → List (ParsedComment × Invocation)
  | [] => []
  | c :: cs =>
    match c.aliasName with
    | some a => collect_generate_commands_go filter_fn ((a, c) :: aliases) cs
    | none =>
      if filter_fn c then
        match alias_lookup aliases c.command with
        | some al =>
          (c, ⟨al.command, al.args ++ c.args⟩)
            :: collect_generate_commands_go filter_fn aliases cs
        | none =>
          (c, ⟨c.command, c.args⟩)
            :: collect_generate_commands_go filter_fn aliases cs
      else collect_generate_commands_go filter_fn aliases cs

/-- `collect_generate_commands` (the function only ever returns `Ok`, so
the `Result` wrapper is dropped): a scan starting from an empty alias
map. -/
def collect_generate_commands (filter_fn : ParsedComment → Bool)
    (comments : List ParsedComment) : List (ParsedComment × Invocation) :=
  collect_generate_commands_go filter_fn [] comments

/-- The flags of `GenerateFlags` consumed by `generate`: the optional
`run` / `skip` regexes abstracted to match predicates, and the three
booleans kept in their `Option` shape (`unwrap_or(false)` is applied at
the use sites, as in the source). -/
structure GenerateFlags where
  run : Option (String → Bool)
  skip : Option (String → Bool)
  verbose : Option Bool
  dry_run : Option Bool
  trace : Option Bool

/-- The captured result of a spawned child process
(`std::process::Output`). -/
structure ProcOutput where
  stdout : String
  stderr : String
  status : Int
deriving DecidableEq, Repr

/-- One observable step of the `generate` loop: the `println!` calls,
tagged by call site, and the `command.output()` spawn. -/
inductive Event where
  | logRunning : String → Event
  | spawn : String → List String → Event
  | logOutput : String → String → Event
  | logStatus : String → Event
deriving DecidableEq, Repr

/-- Modelled from the spec: `ParsedComment::command_full`, implemented in
the missing `parse_comments.rs`. The spec states that the verbose notice
names the fully expanded command ("one verbose log line showing the fully
expanded command `make -j4 extra`"), so the notice text is rendered from
the resolved invocation. -/
def command_full (inv : Invocation) : String :=
  String.intercalate " " (inv.prog :: inv.cmdArgs)

/-- The body of the inner loop of `generate` in `mod.rs` for one collected
directive: the optional verbose notice, the dry-run stop, the spawn, the
captured-output forwarding gated on `verbose || trace`, and the trace
status line. `output` supplies the result of `command.output()`. -/
def run_directive (flags : GenerateFlags) (module_specifier : String)
    (output : Invocation → ProcOutput) (inv : Invocation) : List Event :=
  let verbose := flags.verbose.getD false
  let dry_run := flags.dry_run.getD false
  let trace := flags.trace.getD false
  (if verbose then
     [Event.logRunning
       ("Running " ++ command_full inv ++ " in <" ++ module_specifier ++ ">")]
   else [])
  ++ (if dry_run then []
      else
        Event.spawn inv.prog inv.cmdArgs
          :: ((if verbose || trace then
                 [Event.logOutput (output inv).stdout (output inv).stderr]
               else [])
              ++ (if trace then
                    [Event.logStatus ("exit status " ++ toString (output inv).status)]
                  else [])))

/-- The per-module part of `generate` (the loop body of `mod.rs`, lines
54 to 81): collect the directives using the comment filter built from the
flags (`generate` passes the always-true extra filter), then run each in
order. -/
def generate_module (flags : GenerateFlags) (module_specifier : String)
    (output : Invocation → ProcOutput) (comments : List ParsedComment) : List Event :=
  (collect_generate_commands
      (comment_filter_from_generate_flags flags.run flags.skip (fun _ => true))
      comments).flatMap
    (fun pc => run_directive flags module_specifier output pc.2)


theorem breakOnChar_not_mem (q : Char) (t r : List Char) (h : q ∉ t) :
    breakOnChar q (t ++ q :: r) = some (t, r) := by
  induction t with
  | nil => simp [breakOnChar]
  | cons c t ih =>
    have hc : ¬c = q := fun hc => h (hc ▸ List.mem_cons_self c t)
    simp [breakOnChar, hc, ih (fun hm => h (List.mem_cons_of_mem c hm))]

theorem qsc_no_quotes_aux : ∀ (n : Nat) (s : List Char), s.length ≤ n →
    (∀ c ∈ s, ¬(c = dquote ∨ c = squote)) →
    quoted_split_core s = .ok (specWords s) := by
  intro n
  induction n with
  | zero =>
    intro s hs _
    cases s with
    | nil => rw [qsc_nil]; decide
    | cons c s => simp at hs
  | succ n ih =>
    intro s hs hnq
    cases s with
    | nil => rw [qsc_nil]; decide
    | cons c s =>
      have hlen : s.length ≤ n := Nat.lt_succ_iff.mp hs
      by_cases hsp : is_space_byte c
      · rw [qsc_space s hsp, specWords_space s hsp]
        exact ih s hlen (fun x hx => hnq x (List.mem_cons_of_mem c hx))
      · have hq : ¬(c = dquote ∨ c = squote) := hnq c (List.mem_cons_self c s)
        have hsp' : is_space_byte c = false := by simpa using hsp
        rw [qsc_word s hsp' hq, specWords_word s hsp']
        have hr : ∀ x ∈ (takeTok s).2, ¬(x = dquote ∨ x = squote) := by
          intro x hx
          refine hnq x (List.mem_cons_of_mem c ?_)
          rw [← takeTok_append s]
          exact List.mem_append_right _ hx
        rw [ih (takeTok s).2 (Nat.le_trans (takeTok_snd_length s) hlen) hr]
        rfl

theorem qsc_no_quotes (s : List Char) (hnq : ∀ c ∈ s, ¬(c = dquote ∨ c = squote)) :
    quoted_split_core s = .ok (specWords s) :=
  qsc_no_quotes_aux s.length s (Nat.le_refl _) hnq

/-- Claim C4: the Rust source aborts on an unterminated quote: on input
`'a` the tokenizer reaches `panic!("unterminated {} string", quote)`
rather than returning a recoverable `UnterminatedQuote` error (its return
type `Vec<&str>` has no error channel), contradicting the module's own
test `test_unterminated_single_quote`, which asserts
`quoted_split("'a").is_err()`. -/
theorem c4_unterminated_quote_panics :
    quoted_split "'a" = .panicked "unterminated ' string" := by
  rw [quoted_split, qsc_eval]
  decide

/-- Claim C6: a token beginning with a single or double quote is consumed
verbatim up to the next occurrence of the same quote character (no escape
processing), the delimiting quotes are stripped, the rest is tokenized
separately (so adjacent quoted segments become separate tokens), and
concretely the input consisting of `'a '` followed by `"b "` yields the
two tokens `a ` and `b `. -/
theorem c6_quoted_token :
    (∀ (q : Char) (body rest : List Char), q = dquote ∨ q = squote → q ∉ body →
      quoted_split_core (q :: (body ++ q :: rest)) = (quoted_split_core rest).consTok body)
    ∧ quoted_split "'a '\"b \"" = .ok ["a ", "b "] := by
  constructor
  · intro q body rest hq hnb
    exact qsc_quote_some hq (breakOnChar_not_mem q body rest hnb)
  · rw [quoted_split, qsc_eval]
    decide

theorem c6_quoted_token_witness :
    quoted_split_core (squote :: (['a', ' '] ++ squote :: []))
      = (quoted_split_core []).consTok ['a', ' '] :=
  c6_quoted_token.1 squote ['a', ' '] [] (Or.inr rfl) (by decide)

/-- Claim C7: on a string with no quote characters the tokenizer agrees
with the plain whitespace split `specWords` (whitespace runs separate
tokens, leading and trailing whitespace is discarded), and the
enumerated concrete cases hold, the empty and all-whitespace inputs
yielding the empty sequence. -/
theorem c7_whitespace_split :
    (∀ s : String, (∀ c ∈ s.data, ¬(c = dquote ∨ c = squote)) →
      quoted_split s = .ok ((specWords s.data).map fun t => String.mk t))
    ∧ quoted_split "" = .ok []
    ∧ quoted_split " " = .ok []
    ∧ quoted_split "a" = .ok ["a"]
    ∧ quoted_split "a  b" = .ok ["a", "b"]
    ∧ quoted_split "a\tb" = .ok ["a", "b"] := by
  refine ⟨?_, ?_, ?_, ?_, ?_, ?_⟩
  · intro s hnq
    rw [quoted_split, qsc_no_quotes s.data hnq]
  · rw [quoted_split, qsc_eval]; decide
  · rw [quoted_split, qsc_eval]; decide
  · rw [quoted_split, qsc_eval]; decide
  · rw [quoted_split, qsc_eval]; decide
  · rw [quoted_split, qsc_eval]; decide

theorem c7_whitespace_split_witness :
    quoted_split "x y" = .ok ((specWords "x y".data).map fun t => String.mk t) :=
  c7_whitespace_split.1 "x y" (by decide)

/-- Claim C10: quote characters are recognized only at the first
character of a token: a token starting with a non-quote, non-space
character extends to the next whitespace, keeping any quote or backslash
characters inside it as literal content, and concretely the input
backslash-quote yields that two-character token unchanged. -/
theorem c10_quote_inside_token :
    (∀ (c : Char) (t s : List Char), is_space_byte c = false →
      ¬c = dquote → ¬c = squote → (∀ x ∈ t, is_space_byte x = false) →
      quoted_split_core (c :: (t ++ ' ' :: s))
        = (quoted_split_core s).consTok (c :: t))
    ∧ (∀ (c : Char) (t : List Char), is_space_byte c = false →
      ¬c = dquote → ¬c = squote → (∀ x ∈ t, is_space_byte x = false) →
      quoted_split_core (c :: t) = .ok [c :: t])
    ∧ quoted_split "\\'" = .ok ["\\'"] := by
  refine ⟨?_, ?_, ?_⟩
  · intro c t s hc hd hs ht
    have hq : ¬(c = dquote ∨ c = squote) := by tauto
    rw [qsc_word _ hc hq,
      takeTok_of_nospace t (' ' :: s) ht (Or.inr ⟨' ', s, rfl, by decide⟩)]
    dsimp only
    rw [qsc_space s (by decide)]
  · intro c t hc hd hs ht
    have hq : ¬(c = dquote ∨ c = squote) := by tauto
    have htt : takeTok t = (t, []) := by
      have h := takeTok_of_nospace t [] ht (Or.inl rfl)
      rwa [List.append_nil] at h
    rw [qsc_word _ hc hq, htt]
    dsimp only
    rw [qsc_nil]
    rfl
  · rw [quoted_split, qsc_eval]
    decide

theorem c10_quote_inside_token_witness :
    quoted_split_core ('x' :: ([squote] ++ ' ' :: ['y']))
      = (quoted_split_core ['y']).consTok ('x' :: [squote]) :=
  c10_quote_inside_token.1 'x' [squote] ['y'] (by decide) (by decide) (by decide)
    (by decide)

/-- Claim C1, counterexample: with an empty `include` set (and no `ignore`
patterns at all) the path filter rejects the path `foo.ts`, whereas the
claim demands that every path not matching an `ignore` pattern be
accepted. -/
theorem c1_empty_include_rejects :
    file_filter_from_file_flags [] [] (fun _ => true) "foo.ts" = false := by
  decide

/-- Claim C1 as amended: the path filter accepts a path iff the extra
filter accepts it, no `ignore` pattern matches, and at least one `include`
pattern matches; in particular an empty `include` set rejects every
path. -/
theorem c1_file_filter_requires_include
    (include_patterns ignore_patterns : List (String → Bool))
    (filter_fn : String → Bool) (path : String) :
    file_filter_from_file_flags include_patterns ignore_patterns filter_fn path
      = (filter_fn path && !ignore_patterns.any (fun p => p path)
          && include_patterns.any (fun p => p path)) := by
  rw [file_filter_from_file_flags]
  by_cases hf : filter_fn path <;>
    by_cases hi : ignore_patterns.any (fun p => p path) <;>
      simp [hf, hi]

/-- Claim C2, counterexample: a runnable directive whose command token
`foo` names no previously defined alias is not an error: it is collected
as a plain command with program `foo` and the directive's own args. -/
theorem c2_unknown_alias_runs_plain :
    collect_generate_commands (fun _ => true)
      [⟨1, 1, "//deno:generate foo bar", none, "foo", ["bar"]⟩]
      = [(⟨1, 1, "//deno:generate foo bar", none, "foo", ["bar"]⟩,
          ⟨"foo", ["bar"]⟩)] := by
  decide

/-- Claim C2 as amended: a runnable directive whose command token matches
no alias in the registry is silently resolved as a plain command, the
token itself becoming the program and the directive's args the argument
list; no error is raised. -/
theorem c2_unknown_alias_plain_command (filter_fn : ParsedComment → Bool)
    (aliases : List (String × ParsedComment)) (c : ParsedComment)
    (cs : List ParsedComment) (hna : c.aliasName = none) (hf : filter_fn c = true)
    (hl : alias_lookup aliases c.command = none) :
    collect_generate_commands_go filter_fn aliases (c :: cs)
      = (c, ⟨c.command, c.args⟩) :: collect_generate_commands_go filter_fn aliases cs := by
  rw [collect_generate_commands_go]
  simp [hna, hf, hl]

theorem c2_unknown_alias_plain_command_witness :
    collect_generate_commands_go (fun _ => true) []
      [⟨1, 1, "x", none, "foo", ["bar"]⟩]
      = (⟨1, 1, "x", none, "foo", ["bar"]⟩, ⟨"foo", ["bar"]⟩)
        :: collect_generate_commands_go (fun _ => true) [] [] :=
  c2_unknown_alias_plain_command (fun _ => true) [] _ [] rfl rfl rfl

/-- Claim C5: a directive whose command token resolves to an alias yields
the invocation with the alias's command as program and the alias's args
followed by the directive's own args; an alias-defining comment is
registered for the directives after it; and the spec's concrete example
(`cmd=echo hi`, then `cmd there`) resolves to `echo` with args
`hi there`. -/
theorem c5_alias_expansion :
    (∀ (f : ParsedComment → Bool) (A : List (String × ParsedComment))
        (c : ParsedComment) (cs : List ParsedComment) (al : ParsedComment),
      c.aliasName = none → f c = true → alias_lookup A c.command = some al →
      collect_generate_commands_go f A (c :: cs)
        = (c, ⟨al.command, al.args ++ c.args⟩)
            :: collect_generate_commands_go f A cs)
    ∧ (∀ (f : ParsedComment → Bool) (A : List (String × ParsedComment))
        (d c : ParsedComment) (cs : List ParsedComment) (a : String),
      d.aliasName = some a → c.aliasName = none → c.command = a → f c = true →
      collect_generate_commands_go f A (d :: c :: cs)
        = (c, ⟨d.command, d.args ++ c.args⟩)
            :: collect_generate_commands_go f ((a, d) :: A) cs)
    ∧ collect_generate_commands (fun _ => true)
        [⟨1, 1, "//deno:generate cmd=echo hi", some "cmd", "echo", ["hi"]⟩,
         ⟨2, 1, "//deno:generate cmd there", none, "cmd", ["there"]⟩]
        = [(⟨2, 1, "//deno:generate cmd there", none, "cmd", ["there"]⟩,
            ⟨"echo", ["hi", "there"]⟩)] := by
  have h1 : ∀ (f : ParsedComment → Bool) (A : List (String × ParsedComment))
      (c : ParsedComment) (cs : List ParsedComment) (al : ParsedComment),
      c.aliasName = none → f c = true → alias_lookup A c.command = some al →
      collect_generate_commands_go f A (c :: cs)
        = (c, ⟨al.command, al.args ++ c.args⟩)
            :: collect_generate_commands_go f A cs := by
    intro f A c cs al hna hf hl
    rw [collect_generate_commands_go]
    simp [hna, hf, hl]
  refine ⟨h1, ?_, ?_⟩
  · intro f A d c cs a hd hna hcmd hf
    have hreg : collect_generate_commands_go f A (d :: c :: cs)
        = collect_generate_commands_go f ((a, d) :: A) (c :: cs) := by
      rw [collect_generate_commands_go]
      simp [hd]
    have hl : alias_lookup ((a, d) :: A) c.command = some d := by
      simp [alias_lookup, hcmd]
    rw [hreg, h1 f ((a, d) :: A) c cs d hna hf hl]
  · decide

theorem c5_alias_expansion_witness :
    collect_generate_commands_go (fun _ => true)
      [("b", ⟨1, 1, "x", some "b", "make", ["-j4"]⟩)]
      [⟨2, 1, "y", none, "b", ["extra"]⟩]
      = (⟨2, 1, "y", none, "b", ["extra"]⟩, ⟨"make", ["-j4", "extra"]⟩)
        :: collect_generate_commands_go (fun _ => true)
            [("b", ⟨1, 1, "x", some "b", "make", ["-j4"]⟩)] [] :=
  c5_alias_expansion.1 (fun _ => true)
    [("b", ⟨1, 1, "x", some "b", "make", ["-j4"]⟩)]
    ⟨2, 1, "y", none, "b", ["extra"]⟩ [] ⟨1, 1, "x", some "b", "make", ["-j4"]⟩
    rfl rfl (by decide)

/-- Claim C8: with the always-true extra filter that `generate` passes,
the directive filter accepts a directive iff the `run` regex is absent or
matches the directive's `original` text, and the `skip` regex is absent
or does not match it; in particular a directive matching both is rejected
and with both absent every directive is accepted. -/
theorem c8_comment_filter (run_regex skip_regex : Option (String → Bool))
    (c : ParsedComment) :
    comment_filter_from_generate_flags run_regex skip_regex (fun _ => true) c
      = ((match run_regex with | some r => r c.original | none => true)
          && (match skip_regex with | some k => !k c.original | none => true)) := by
  cases run_regex <;> cases skip_regex <;>
    simp [comment_filter_from_generate_flags]

/-- Claim C3, counterexample: with `verbose`, `trace` and `dry_run` all
unset, the directive is executed (the spawn happens) but the captured
stdout and stderr are not forwarded: the trace contains no output
event. -/
theorem c3_quiet_run_drops_output :
    run_directive ⟨none, none, none, none, none⟩ "file:///m.ts"
      (fun _ => ⟨"out", "err", 0⟩) ⟨"echo", ["hi"]⟩
      = [Event.spawn "echo" ["hi"]] := by
  decide

/-- Claim C3 as amended: for an executed directive (dry_run not set) the
captured stdout and stderr are forwarded to the output channel iff the
`verbose` or the `trace` flag is set. -/
theorem c3_output_forwarded_iff_verbose_or_trace (flags : GenerateFlags)
    (module_specifier : String) (output : Invocation → ProcOutput)
    (inv : Invocation) (hdr : flags.dry_run.getD false = false) :
    (Event.logOutput (output inv).stdout (output inv).stderr
        ∈ run_directive flags module_specifier output inv)
      ↔ (flags.verbose.getD false || flags.trace.getD false) = true := by
  by_cases hv : flags.verbose.getD false <;>
    by_cases ht : flags.trace.getD false <;>
      simp [run_directive, hdr, hv, ht]

theorem c3_output_forwarded_iff_verbose_or_trace_witness :
    Event.logOutput "out" "err"
      ∈ run_directive ⟨none, none, some true, none, none⟩ "m"
          (fun _ => ⟨"out", "err", 0⟩) ⟨"p", []⟩ :=
  (c3_output_forwarded_iff_verbose_or_trace ⟨none, none, some true, none, none⟩
    "m" (fun _ => ⟨"out", "err", 0⟩) ⟨"p", []⟩ rfl).mpr rfl

/-- Claim C9: under `dry_run` the trace of a module consists exactly of
the verbose notices of the surviving directives (one per directive when
`verbose` is set, none otherwise); hence no process is ever spawned; and
the spec's concrete module (alias `build=make -j4`, then directive
`build extra`, with `verbose` and `dry_run` set) produces exactly one
verbose log line showing the expanded command and spawns nothing. -/
theorem c9_dry_run :
    (∀ (flags : GenerateFlags) (ms : String) (output : Invocation → ProcOutput)
        (comments : List ParsedComment), flags.dry_run.getD false = true →
      generate_module flags ms output comments
        = (collect_generate_commands
            (comment_filter_from_generate_flags flags.run flags.skip (fun _ => true))
            comments).flatMap
            (fun pc => if flags.verbose.getD false then
                [Event.logRunning
                  ("Running " ++ command_full pc.2 ++ " in <" ++ ms ++ ">")]
              else []))
    ∧ (∀ (flags : GenerateFlags) (ms : String) (output : Invocation → ProcOutput)
        (comments : List ParsedComment) (p : String) (a : List String),
      flags.dry_run.getD false = true →
      Event.spawn p a ∉ generate_module flags ms output comments)
    ∧ generate_module ⟨none, none, some true, some true, none⟩ "file:///main.ts"
        (fun _ => ⟨"", "", 0⟩)
        [⟨1, 1, "//deno:generate build=make -j4", some "build", "make", ["-j4"]⟩,
         ⟨2, 1, "//deno:generate build extra", none, "build", ["extra"]⟩]
        = [Event.logRunning "Running make -j4 extra in <file:///main.ts>"] := by
  have h1 : ∀ (flags : GenerateFlags) (ms : String) (output : Invocation → ProcOutput)
      (comments : List ParsedComment), flags.dry_run.getD false = true →
      generate_module flags ms output comments
        = (collect_generate_commands
            (comment_filter_from_generate_flags flags.run flags.skip (fun _ => true))
            comments).flatMap
            (fun pc => if flags.verbose.getD false then
                [Event.logRunning
                  ("Running " ++ command_full pc.2 ++ " in <" ++ ms ++ ">")]
              else []) := by
    intro flags ms output comments hdr
    rw [generate_module]
    congr 1
    funext pc
    simp [run_directive, hdr]
  refine ⟨h1, ?_, ?_⟩
  · intro flags ms output comments p a hdr
    rw [h1 flags ms output comments hdr]
    simp only [List.mem_flatMap, not_exists, not_and]
    intro x hx
    by_cases hv : flags.verbose.getD false <;> simp [hv]
  · rw [h1 ⟨none, none, some true, some true, none⟩ "file:///main.ts"
      (fun _ => ⟨"", "", 0⟩) _ rfl]
    decide

theorem c9_dry_run_witness :
    generate_module ⟨none, none, some true, some true, none⟩ "m"
        (fun _ => ⟨"", "", 0⟩) [⟨1, 1, "o", none, "echo", ["hi"]⟩]
      = (collect_generate_commands
          (comment_filter_from_generate_flags none none (fun _ => true))
          [⟨1, 1, "o", none, "echo", ["hi"]⟩]).flatMap
          (fun pc => if (some true : Option Bool).getD false then
              [Event.logRunning
                ("Running " ++ command_full pc.2 ++ " in <" ++ "m" ++ ">")]
            else []) :=
  c9_dry_run.1 ⟨none, none, some true, some true, none⟩ "m"
    (fun _ => ⟨"", "", 0⟩) [⟨1, 1, "o", none, "echo", ["hi"]⟩] rfl
